import Mathlib

/-!
# Verification of the Lightning Network simulator core (`src/lnsimulator/script.js`)

Shallow embedding of the network generator, the capacity-constrained router
(`findPathWithCapacity`), and the capacity formatting helpers, together with
proofs of the specified properties.

A channel is a record `{start, end, capacity}` as pushed by `generateNetwork`
(the DOM `element` field is presentation-only and omitted).  The router's
global `channels` array becomes an explicit `List Channel` argument.
-/

structure Channel where
  start : Nat
  «end» : Nat
  capacity : Nat
deriving DecidableEq, Repr

/-- Embeds `(c.start === a && c.end === b) || (c.end === a && c.start === b)`,
the test used by `findPathWithCapacity`'s validation pass (and by
`highlightPath`) to decide whether channel `c` joins nodes `a` and `b`. -/
def connects (c : Channel) (a b : Nat) : Bool :=
  (c.start == a && c.«end» == b) || (c.«end» == a && c.start == b)

theorem connects_iff {c : Channel} {a b : Nat} :
    connects c a b = true ↔ (c.start = a ∧ c.«end» = b) ∨ (c.«end» = a ∧ c.start = b) := by
  simp [connects]

/-- Embeds `channels.find(c => ...)`: the first channel joining `a` and `b`. -/
def channelBetween (channels : List Channel) (a b : Nat) : Option Channel :=
  channels.find? (fun c => connects c a b)

/-- The final validation pass of `findPathWithCapacity`: every consecutive
pair of the path is joined by a channel (the first one found) whose capacity
is at least `amount`. -/
def isPathValid (channels : List Channel) (amount : Nat) : List Nat → Bool
  | a :: b :: rest =>
    (match channelBetween channels a b with
     | some c => decide (amount ≤ c.capacity)
     | none => false) && isPathValid channels amount (b :: rest)
  | _ => true

/-- The neighbor computation inside `findPathWithCapacity`: endpoints, other
than `node`, of channels incident to `node` with `capacity >= amount`,
in channel storage order. -/
def neighbors (channels : List Channel) (amount node : Nat) : List Nat :=
  (channels.filter (fun c => (c.start == node || c.«end» == node) && decide (amount ≤ c.capacity))).map
    (fun c => if c.start == node then c.«end» else c.start)

/-- All node identities occurring as a channel endpoint. -/
def nodeCandidates (channels : List Channel) : List Nat :=
  (channels.flatMap (fun c => [c.start, c.«end»])).dedup

/-- Termination measure for the router's `while` loop: nodes that may still be
added to `visited`, weighted by the maximal number of paths one expansion can
enqueue, plus the queue length.  Each loop iteration strictly decreases it. -/
def queueMeasure (channels : List Channel) (visited : List Nat) (queue : List (List Nat)) : Nat :=
  ((nodeCandidates channels).filter (fun v => decide (v ∉ visited))).length * (channels.length + 1)
    + queue.length

/-- One `while (queue.length > 0)` loop of `findPathWithCapacity`, with an
explicit iteration budget `fuel` (the loop runs at most `queueMeasure` many
iterations, see `queueMeasure_pos_step`; `findPathWithCapacity` supplies a
provably sufficient budget). -/
def findAux (channels : List Channel) («end» amount : Nat) :
    Nat → List Nat → List (List Nat) → List Nat
  | 0, _, _ => []
  | fuel + 1, visited, queue =>
    match queue with
    | [] => []
    | path :: rest =>
      let node := path.getLastD 0
      if node = «end» ∧ isPathValid channels amount path = true then path
      else if node ∈ visited then
        findAux channels «end» amount fuel visited rest
      else
        findAux channels «end» amount fuel (node :: visited)
          (rest ++ (neighbors channels amount node).map (fun nb => path ++ [nb]))

/-- Fuel sufficient for the whole search: the initial value of `queueMeasure`. -/
def initialFuel (channels : List Channel) : Nat :=
  (nodeCandidates channels).length * (channels.length + 1) + 1

/-- Embeds `findPathWithCapacity(start, end, amount)`: BFS over paths with a
visited set; returns the discovered path, or `[]` (the `not-found` value). -/
def findPathWithCapacity (channels : List Channel) (start «end» amount : Nat) : List Nat :=
  findAux channels «end» amount (initialFuel channels) [] [[start]]

/-- Embeds `getChannelClass(capacity)`. -/
def getChannelClass (capacity : Nat) : String :=
  if capacity < 20000000 then "small"
  else if capacity < 50000000 then "medium"
  else "large"

/-- The fixed capacity list of `generateCapacity`. -/
def capacities : List Nat :=
  [5000000, 10000000, 20000000, 30000000, 40000000, 50000000,
   60000000, 70000000, 80000000, 90000000, 100000000, 200000000]

/-- Embeds `generateCapacity()`, i.e. `capacities[Math.floor(Math.random() * capacities.length)]`,
with the random index draw `Math.floor(Math.random() * 12)` modelled by an
arbitrary natural `r` reduced into range. -/
def generateCapacity (r : Nat) : Nat :=
  capacities.getD (r % capacities.length) 0

/-- Embeds `(q).toFixed(2)`: decimal rendering with exactly two fractional digits,
rounding to the nearest hundredth (half up). -/
def toFixed2 (q : ℚ) : String :=
  let n : ℤ := ⌊q * 100 + 1 / 2⌋
  if n < 0 then
    "-" ++ toString ((-n).toNat / 100) ++ "." ++
      (if (-n).toNat % 100 < 10 then "0" else "") ++ toString ((-n).toNat % 100)
  else
    toString (n.toNat / 100) ++ "." ++
      (if n.toNat % 100 < 10 then "0" else "") ++ toString (n.toNat % 100)

/-- Embeds `formatCapacity(sats)`. -/
def formatCapacity (sats : Nat) : String :=
  if 100000000 ≤ sats then
    toFixed2 ((sats : ℚ) / 100000000) ++ " BTC"
  else
    toFixed2 ((sats : ℚ) / 1000000) ++ "m sats"

/-- The node list built by `generateNetwork`: node identities are the indices
`0 .. numNodes-1` (the DOM boxes and labels are presentation-only). -/
def genNodes (numNodes : Nat) : List Nat :=
  List.range numNodes

/-- The channel list built by `generateNetwork`: for each pair `i < j` (in the
double-loop order), a channel `{start: i, end: j, capacity: generateCapacity()}`
is pushed when `Math.random() < channelProbability`.  The random draws are
injected: `rand i j` is the uniform `[0,1)` draw for pair `(i,j)` and
`capr i j` the capacity index draw. -/
def generateChannels (rand : Nat → Nat → ℚ) (capr : Nat → Nat → Nat)
    (numNodes : Nat) (p : ℚ) : List Channel :=
  (List.range numNodes).flatMap (fun i =>
    (List.range' (i + 1) (numNodes - (i + 1))).filterMap (fun j =>
      if rand i j < p then some ⟨i, j, generateCapacity (capr i j)⟩ else none))

/-- Two channels connect the same unordered node pair. -/
def samePair (c c' : Channel) : Bool :=
  (c.start == c'.start && c.«end» == c'.«end») || (c.start == c'.«end» && c.«end» == c'.start)

/-- The data-model invariant of §3 of the spec: every channel joins two
distinct nodes and no unordered pair carries more than one channel. -/
def wfChannels : List Channel → Bool
  | [] => true
  | c :: rest => (c.start != c.«end» && rest.all (fun c' => !samePair c c')) && wfChannels rest

/-- A capacity-eligible hop: some channel of the network joins `a` and `b`
and has capacity at least `amount`. -/
def eligStep (channels : List Channel) (amount a b : Nat) : Prop :=
  ∃ c ∈ channels, connects c a b = true ∧ amount ≤ c.capacity

/-- Predicate: `p` is a path from `s` to `t` every hop of which is capacity-eligible
(§3's Path notion restricted to eligible channels). -/
def IsEligPath (channels : List Channel) (amount s t : Nat) (p : List Nat) : Prop :=
  p.head? = some s ∧ p.getLast? = some t ∧ p.Chain' (eligStep channels amount)

instance (channels : List Channel) (amount a b : Nat) :
    Decidable (eligStep channels amount a b) :=
  decidable_of_iff (∃ c ∈ channels, connects c a b = true ∧ amount ≤ c.capacity) Iff.rfl

instance (channels : List Channel) (amount s t : Nat) (p : List Nat) :
    Decidable (IsEligPath channels amount s t p) :=
  decidable_of_iff
    (p.head? = some s ∧ p.getLast? = some t ∧ p.Chain' (eligStep channels amount)) Iff.rfl

/-! ## Basic facts about channels, `find`, validation and neighbors -/

theorem samePair_of_connects {c c' : Channel} {a b : Nat}
    (h : connects c a b = true) (h' : connects c' a b = true) : samePair c c' = true := by
  rw [connects_iff] at h h'
  simp only [samePair, Bool.or_eq_true, Bool.and_eq_true, beq_iff_eq]
  rcases h with ⟨h1, h2⟩ | ⟨h1, h2⟩ <;> rcases h' with ⟨h3, h4⟩ | ⟨h3, h4⟩ <;> omega

theorem wfChannels_cons {c : Channel} {rest : List Channel} :
    wfChannels (c :: rest) = true ↔
      (c.start ≠ c.«end» ∧ ∀ c' ∈ rest, samePair c c' = false) ∧ wfChannels rest = true := by
  simp [wfChannels, List.all_eq_true]

/-- Under the unordered-pair uniqueness invariant, `channels.find` locates the
unique channel joining a given pair. -/
theorem channelBetween_eq_of_wf {channels : List Channel} (hwf : wfChannels channels = true)
    {c : Channel} {a b : Nat} (hc : c ∈ channels) (hcon : connects c a b = true) :
    channelBetween channels a b = some c := by
  induction channels with
  | nil => cases hc
  | cons d rest ih =>
    obtain ⟨⟨hne, hall⟩, hrest⟩ := wfChannels_cons.mp hwf
    by_cases hd : connects d a b = true
    · have : c = d := by
        rcases List.mem_cons.mp hc with h | h
        · exact h
        · have := hall c h
          rw [samePair_of_connects hd hcon] at this
          cases this
      rw [this, channelBetween]
      exact List.find?_cons_of_pos _ hd
    · have hcr : c ∈ rest := by
        rcases List.mem_cons.mp hc with h | h
        · rw [h] at hcon; exact absurd hcon hd
        · exact h
      rw [channelBetween, List.find?_cons_of_neg _ (by simpa using hd)]
      exact ih hrest hcr

theorem chain_of_isPathValid {channels : List Channel} {amount : Nat} :
    ∀ {p : List Nat}, isPathValid channels amount p = true →
      p.Chain' (eligStep channels amount)
  | [], _ => List.chain'_nil
  | [_], _ => List.chain'_singleton _
  | a :: b :: rest, h => by
    rw [isPathValid, Bool.and_eq_true] at h
    obtain ⟨h1, h2⟩ := h
    rw [List.chain'_cons]
    refine ⟨?_, chain_of_isPathValid h2⟩
    cases hcb : channelBetween channels a b with
    | none => rw [hcb] at h1; cases h1
    | some c =>
      rw [hcb, decide_eq_true_eq] at h1
      have hcb' : channels.find? (fun c => connects c a b) = some c := hcb
      exact ⟨c, List.mem_of_find?_eq_some hcb', by simpa using List.find?_some hcb', h1⟩

theorem isPathValid_of_chain {channels : List Channel} {amount : Nat}
    (hwf : wfChannels channels = true) :
    ∀ {p : List Nat}, p.Chain' (eligStep channels amount) →
      isPathValid channels amount p = true
  | [], _ => rfl
  | [_], _ => rfl
  | a :: b :: rest, h => by
    rw [List.chain'_cons] at h
    obtain ⟨⟨c, hmem, hcon, hcap⟩, h2⟩ := h
    rw [isPathValid, Bool.and_eq_true]
    refine ⟨?_, isPathValid_of_chain hwf h2⟩
    rw [channelBetween_eq_of_wf hwf hmem hcon, decide_eq_true_eq]
    exact hcap

theorem mem_neighbors {channels : List Channel} {amount node nb : Nat} :
    nb ∈ neighbors channels amount node ↔ eligStep channels amount node nb := by
  constructor
  · intro h
    rw [neighbors] at h
    obtain ⟨c, hc, hmap⟩ := List.mem_map.mp h
    obtain ⟨hmem, hcond⟩ := List.mem_filter.mp hc
    rw [Bool.and_eq_true, Bool.or_eq_true, decide_eq_true_eq] at hcond
    obtain ⟨hinc, hcap⟩ := hcond
    by_cases hs : c.start = node
    · refine ⟨c, hmem, ?_, hcap⟩
      rw [if_pos (by simpa using hs)] at hmap
      rw [connects_iff]
      exact Or.inl ⟨hs, hmap⟩
    · have he : c.«end» = node := by
        rcases hinc with h | h
        · exact absurd (by simpa using h) hs
        · simpa using h
      rw [if_neg (by simpa using hs)] at hmap
      refine ⟨c, hmem, ?_, hcap⟩
      rw [connects_iff]
      exact Or.inr ⟨he, hmap⟩
  · rintro ⟨c, hmem, hcon, hcap⟩
    rw [neighbors]
    rcases connects_iff.mp hcon with ⟨h1, h2⟩ | ⟨h1, h2⟩
    · refine List.mem_map.mpr ⟨c, List.mem_filter.mpr ⟨hmem, ?_⟩, ?_⟩
      · simp [h1, hcap]
      · rw [if_pos (by simpa using h1)]
        exact h2
    · refine List.mem_map.mpr ⟨c, List.mem_filter.mpr ⟨hmem, ?_⟩, ?_⟩
      · simp [h1, hcap]
      · by_cases hs : c.start = node
        · rw [if_pos (by simpa using hs)]
          omega
        · rw [if_neg (by simpa using hs)]
          exact h2

/-! ## Walks over eligible channels, avoiding a visited set -/

/-- Predicate `AvoidLen channels amount visited n u v`: there is a walk of `n`
capacity-eligible hops from `u` to `v` all of whose nodes after `u` lie
outside `visited`. -/
inductive AvoidLen (channels : List Channel) (amount : Nat) (visited : List Nat) :
    Nat → Nat → Nat → Prop
  | refl (u : Nat) : AvoidLen channels amount visited 0 u u
  | step {n u w v : Nat} : eligStep channels amount u w → w ∉ visited →
      AvoidLen channels amount visited n w v → AvoidLen channels amount visited (n + 1) u v

/-- Marking `node` visited either leaves an avoiding walk intact, or the walk
ends at `node`, or it passes through `node` and its final segment after the
last visit to `node` starts with an eligible hop out of `node`. -/
theorem avoidLen_split {channels : List Channel} {amount : Nat} {visited : List Nat}
    (node : Nat) :
    ∀ {m u v : Nat}, AvoidLen channels amount visited m u v →
      AvoidLen channels amount (node :: visited) m u v ∨ v = node ∨
        ∃ w m', eligStep channels amount node w ∧ w ∉ node :: visited ∧
          AvoidLen channels amount (node :: visited) m' w v ∧ m' + 1 ≤ m := by
  intro m u v h
  induction h with
  | refl u => exact Or.inl (AvoidLen.refl u)
  | @step n u w v helig hnv _ ih =>
    rcases ih with ih | ih | ⟨w', m', he', hn', ha', hm'⟩
    · by_cases hw : w = node
      · subst hw
        cases ih with
        | refl => exact Or.inr (Or.inl rfl)
        | step he2 hn2 hr2 => exact Or.inr (Or.inr ⟨_, _, he2, hn2, hr2, by omega⟩)
      · refine Or.inl (AvoidLen.step helig ?_ ih)
        intro hc
        rcases List.mem_cons.mp hc with h | h
        · exact hw h
        · exact hnv h
    · exact Or.inr (Or.inl ih)
    · exact Or.inr (Or.inr ⟨w', m', he', hn', ha', by omega⟩)

theorem avoidLen_of_walk {channels : List Channel} {amount : Nat} :
    ∀ (p : List Nat) (s t : Nat), p.head? = some s → p.getLast? = some t →
      p.Chain' (eligStep channels amount) →
      AvoidLen channels amount [] (p.length - 1) s t
  | [], _, _, hh, _, _ => by cases hh
  | [a], s, t, hh, hl, _ => by
    have h1 : a = s := by simpa using hh
    have h2 : a = t := by simpa using hl
    rw [← h1, ← h2]
    exact AvoidLen.refl a
  | a :: b :: rest, s, t, hh, hl, hc => by
    have h1 : a = s := by simpa using hh
    rw [List.getLast?_cons_cons] at hl
    rw [List.chain'_cons] at hc
    have ih := avoidLen_of_walk (b :: rest) b t rfl hl hc.2
    have h2 : AvoidLen channels amount [] ((b :: rest).length - 1 + 1) a t :=
      AvoidLen.step hc.1 (List.not_mem_nil b) ih
    rw [← h1]
    simpa using h2

theorem walk_of_avoidLen {channels : List Channel} {amount : Nat} {visited : List Nat} :
    ∀ {n s t : Nat}, AvoidLen channels amount visited n s t →
      ∃ p : List Nat, p.head? = some s ∧ p.getLast? = some t ∧
        p.Chain' (eligStep channels amount) ∧ p.length = n + 1 := by
  intro n s t h
  induction h with
  | refl u => exact ⟨[u], rfl, rfl, List.chain'_singleton u, rfl⟩
  | @step n u w v helig _ _ ih =>
    obtain ⟨p, hh, hl, hc, hlen⟩ := ih
    obtain ⟨p', rfl⟩ : ∃ p', p = w :: p' := by
      cases p with
      | nil => cases hh
      | cons a p' => exact ⟨p', by simpa using hh⟩
    refine ⟨u :: w :: p', rfl, ?_, ?_, by simpa using hlen⟩
    · rwa [List.getLast?_cons_cons]
    · rw [List.chain'_cons]
      exact ⟨helig, hc⟩

/-! ## The BFS loop invariants -/

/-- Every enqueued element is a nonempty eligible walk starting at `start`. -/
def QInv (channels : List Channel) (amount start : Nat) (queue : List (List Nat)) : Prop :=
  ∀ p ∈ queue, p ≠ [] ∧ p.head? = some start ∧ p.Chain' (eligStep channels amount)

/-- The queue holds the paths of one BFS level followed by paths of the next:
lengths take at most two consecutive values, shorter ones first. -/
def Layered (queue : List (List Nat)) : Prop :=
  ∃ L A B, queue = A ++ B ∧ (∀ p ∈ A, p.length = L) ∧ (∀ p ∈ B, p.length = L + 1)

/-- Every node reachable from `start` by an `n`-hop eligible walk is either
visited already, or some queued path can be prolonged into a walk to it of
total hop count at most `n`, avoiding the visited set. -/
def MInv (channels : List Channel) (amount start : Nat)
    (visited : List Nat) (queue : List (List Nat)) : Prop :=
  ∀ v n, AvoidLen channels amount [] n start v →
    v ∈ visited ∨ ∃ p ∈ queue, p.getLastD 0 ∉ visited ∧
      ∃ m, AvoidLen channels amount visited m (p.getLastD 0) v ∧ p.length + m ≤ n + 1

theorem layered_head_le {path : List Nat} {rest : List (List Nat)} {q : List Nat}
    (hl : Layered (path :: rest)) (hq : q ∈ path :: rest) : path.length ≤ q.length := by
  obtain ⟨L, A, B, heq, hA, hB⟩ := hl
  cases A with
  | nil =>
    rw [List.nil_append] at heq
    have hpath : path.length = L + 1 := hB path (heq ▸ List.mem_cons_self path rest)
    have hqq : q.length = L + 1 := hB q (heq ▸ hq)
    omega
  | cons a A' =>
    rw [List.cons_append] at heq
    injection heq with h1 h2
    have hpath : path.length = L := by
      rw [h1]
      exact hA a (List.mem_cons_self a A')
    rcases List.mem_cons.mp hq with h | h
    · rw [h]
    · rw [h2] at h
      rcases List.mem_append.mp h with h | h
      · rw [hpath, hA q (List.mem_cons_of_mem a h)]
      · rw [hpath, hB q h]
        omega

theorem layered_tail {path : List Nat} {rest : List (List Nat)}
    (hl : Layered (path :: rest)) : Layered rest := by
  obtain ⟨L, A, B, heq, hA, hB⟩ := hl
  cases A with
  | nil =>
    rw [List.nil_append] at heq
    cases B with
    | nil => cases heq
    | cons b B' =>
      injection heq with h1 h2
      exact ⟨L, [], B', by rw [h2, List.nil_append],
        fun p hp => absurd hp (List.not_mem_nil p),
        fun p hp => hB p (List.mem_cons_of_mem b hp)⟩
  | cons a A' =>
    rw [List.cons_append] at heq
    injection heq with h1 h2
    exact ⟨L, A', B, h2, fun p hp => hA p (List.mem_cons_of_mem a hp), hB⟩

theorem layered_expand {path : List Nat} {rest news : List (List Nat)}
    (hl : Layered (path :: rest)) (hnews : ∀ q ∈ news, q.length = path.length + 1) :
    Layered (rest ++ news) := by
  obtain ⟨L, A, B, heq, hA, hB⟩ := hl
  cases A with
  | nil =>
    rw [List.nil_append] at heq
    cases B with
    | nil => cases heq
    | cons b B' =>
      injection heq with h1 h2
      have hplen : path.length = L + 1 := by
        rw [h1]
        exact hB b (List.mem_cons_self b B')
      refine ⟨L + 1, B', news, by rw [h2], ?_, ?_⟩
      · intro p hp
        exact hB p (List.mem_cons_of_mem b hp)
      · intro q hq
        rw [hnews q hq, hplen]
  | cons a A' =>
    rw [List.cons_append] at heq
    injection heq with h1 h2
    have hplen : path.length = L := by
      rw [h1]
      exact hA a (List.mem_cons_self a A')
    refine ⟨L, A', B ++ news, by rw [h2, List.append_assoc],
      fun p hp => hA p (List.mem_cons_of_mem a hp), ?_⟩
    intro q hq
    rcases List.mem_append.mp hq with h | h
    · exact hB q h
    · rw [hnews q h, hplen]

/-! ## The loop measure decreases -/

theorem length_filter_lt {l visited : List Nat} {node : Nat}
    (hmem : node ∈ l) (hnv : node ∉ visited) :
    (l.filter (fun v => decide (v ∉ node :: visited))).length <
      (l.filter (fun v => decide (v ∉ visited))).length := by
  induction l with
  | nil => cases hmem
  | cons a l' ih =>
    rw [List.filter_cons, List.filter_cons]
    by_cases ha : a = node
    · subst ha
      have hmono : (l'.filter (fun v => decide (v ∉ a :: visited))).length ≤
          (l'.filter (fun v => decide (v ∉ visited))).length := by
        apply List.Sublist.length_le
        apply List.monotone_filter_right
        intro x hx
        simp only [decide_eq_true_eq] at hx ⊢
        intro hc
        exact hx (List.mem_cons_of_mem _ hc)
      rw [if_neg (by simp), if_pos (by simpa using hnv)]
      simp only [List.length_cons]
      omega
    · have hnode : node ∈ l' := by
        rcases List.mem_cons.mp hmem with h | h
        · exact absurd h.symm ha
        · exact h
      have hsame : (decide (a ∉ node :: visited)) = (decide (a ∉ visited)) := by
        apply decide_eq_decide.mpr
        constructor
        · intro h hc
          exact h (List.mem_cons_of_mem node hc)
        · intro h hc
          rcases List.mem_cons.mp hc with h' | h'
          · exact ha h'
          · exact h h'
      rw [hsame]
      by_cases hdec : (decide (a ∉ visited)) = true
      · rw [if_pos hdec, if_pos hdec]
        simp only [List.length_cons]
        exact Nat.succ_lt_succ (ih hnode)
      · rw [if_neg hdec, if_neg hdec]
        exact ih hnode

theorem neighbors_length_le {channels : List Channel} {amount node : Nat} :
    (neighbors channels amount node).length ≤ channels.length := by
  rw [neighbors, List.length_map]
  exact List.length_filter_le _ _

theorem mem_nodeCandidates_of_incident {channels : List Channel} {c : Channel} {node : Nat}
    (hc : c ∈ channels) (h : c.start = node ∨ c.«end» = node) :
    node ∈ nodeCandidates channels := by
  rw [nodeCandidates, List.mem_dedup, List.mem_flatMap]
  refine ⟨c, hc, ?_⟩
  rcases h with h | h <;> simp [h]

theorem neighbors_eq_nil_of_not_candidate {channels : List Channel} {amount node : Nat}
    (h : node ∉ nodeCandidates channels) : neighbors channels amount node = [] := by
  rw [neighbors, List.map_eq_nil_iff, List.filter_eq_nil_iff]
  intro c hc hcond
  rw [Bool.and_eq_true, Bool.or_eq_true] at hcond
  apply h
  refine mem_nodeCandidates_of_incident hc ?_
  rcases hcond.1 with h1 | h1
  · exact Or.inl (by simpa using h1)
  · exact Or.inr (by simpa using h1)

theorem filter_visited_cons_of_not_mem {l visited : List Nat} {node : Nat} (h : node ∉ l) :
    l.filter (fun v => decide (v ∉ node :: visited)) = l.filter (fun v => decide (v ∉ visited)) := by
  apply List.filter_congr
  intro a ha
  have hne : a ≠ node := fun he => h (he ▸ ha)
  apply decide_eq_decide.mpr
  constructor
  · intro hx hc
    exact hx (List.mem_cons_of_mem node hc)
  · intro hx hc
    rcases List.mem_cons.mp hc with h' | h'
    · exact hne h'
    · exact hx h'

theorem queueMeasure_tail_lt (channels : List Channel) (visited : List Nat)
    (path : List Nat) (rest : List (List Nat)) :
    queueMeasure channels visited rest < queueMeasure channels visited (path :: rest) := by
  rw [queueMeasure, queueMeasure, List.length_cons]
  omega

theorem queueMeasure_expand_lt (channels : List Channel) (visited : List Nat)
    (path : List Nat) (rest : List (List Nat)) (amount node : Nat)
    (hnv : node ∉ visited) :
    queueMeasure channels (node :: visited)
        (rest ++ (neighbors channels amount node).map (fun nb => path ++ [nb]))
      < queueMeasure channels visited (path :: rest) := by
  rw [queueMeasure, queueMeasure, List.length_append, List.length_map, List.length_cons]
  by_cases hc : node ∈ nodeCandidates channels
  · have h1 := length_filter_lt hc hnv
    have h2 : (neighbors channels amount node).length ≤ channels.length := neighbors_length_le
    have h3 : (((nodeCandidates channels).filter (fun v => decide (v ∉ node :: visited))).length + 1)
        * (channels.length + 1)
        ≤ ((nodeCandidates channels).filter (fun v => decide (v ∉ visited))).length
          * (channels.length + 1) :=
      Nat.mul_le_mul_right _ (Nat.succ_le_of_lt h1)
    rw [Nat.succ_mul] at h3
    omega
  · rw [neighbors_eq_nil_of_not_candidate hc, filter_visited_cons_of_not_mem hc]
    simp only [List.length_nil]
    omega

theorem queueMeasure_init (channels : List Channel) (start : Nat) :
    queueMeasure channels [] [[start]] = initialFuel channels := by
  rw [queueMeasure, initialFuel]
  have h : (nodeCandidates channels).filter (fun v => decide (v ∉ ([] : List Nat)))
      = nodeCandidates channels := by
    apply List.filter_eq_self.mpr
    intro a _
    simp
  rw [h]
  rfl

/-! ## The master BFS lemma -/

theorem findAux_zero {channels : List Channel} {e a : Nat} {visited : List Nat}
    {queue : List (List Nat)} : findAux channels e a 0 visited queue = [] := rfl

theorem findAux_succ_nil {channels : List Channel} {e a fuel : Nat} {visited : List Nat} :
    findAux channels e a (fuel + 1) visited [] = [] := rfl

theorem findAux_succ_cons {channels : List Channel} {e a fuel : Nat} {visited : List Nat}
    {path : List Nat} {rest : List (List Nat)} :
    findAux channels e a (fuel + 1) visited (path :: rest) =
      if path.getLastD 0 = e ∧ isPathValid channels a path = true then path
      else if path.getLastD 0 ∈ visited then findAux channels e a fuel visited rest
      else findAux channels e a fuel (path.getLastD 0 :: visited)
        (rest ++ (neighbors channels a (path.getLastD 0)).map (fun nb => path ++ [nb])) := rfl

theorem getLast?_eq_getLastD {l : List Nat} (h : l ≠ []) : l.getLast? = some (l.getLastD 0) := by
  cases l with
  | nil => cases h rfl
  | cons a l' =>
    rw [List.getLastD_eq_getLast?]
    cases hl : (a :: l').getLast? with
    | none => simp at hl
    | some b => rfl

/-- Expanding the head path by its eligible neighbors preserves the queue
invariant (no well-formedness of the channel list is needed). -/
theorem qinv_expand {channels : List Channel} {amount start : Nat}
    {path : List Nat} {rest : List (List Nat)}
    (hq : QInv channels amount start (path :: rest)) :
    QInv channels amount start
      (rest ++ (neighbors channels amount (path.getLastD 0)).map (fun nb => path ++ [nb])) := by
  obtain ⟨hpne, hphead, hpchain⟩ := hq path (List.mem_cons_self path rest)
  intro q hq2
  rcases List.mem_append.mp hq2 with h | h
  · exact hq q (List.mem_cons_of_mem path h)
  · obtain ⟨nb, hnb, hq3⟩ := List.mem_map.mp h
    rw [← hq3]
    refine ⟨by simp, ?_, ?_⟩
    · cases path with
      | nil => exact absurd rfl hpne
      | cons a path' => simpa using hphead
    · refine List.chain'_append.mpr ⟨hpchain, List.chain'_singleton nb, ?_⟩
      intro x hx y hy
      have hx' : path.getLast? = some x := hx
      rw [getLast?_eq_getLastD hpne] at hx'
      injection hx' with hxeq
      have hy' : ([nb] : List Nat).head? = some y := hy
      injection hy' with hyeq
      rw [← hxeq, ← hyeq]
      exact mem_neighbors.mp hnb

/-- The heart of the verification: along the loop, given the queue invariants,
the result `[]` certifies that the target is unreachable over eligible
channels, and a non-`[]` result is an eligible path from source to target of
minimal hop count. -/
theorem findAux_main {channels : List Channel} {start «end» amount : Nat}
    (hwf : wfChannels channels = true) :
    ∀ (fuel : Nat) (visited : List Nat) (queue : List (List Nat)),
      queueMeasure channels visited queue ≤ fuel →
      QInv channels amount start queue →
      «end» ∉ visited →
      Layered queue →
      MInv channels amount start visited queue →
      (findAux channels «end» amount fuel visited queue = [] →
        ∀ n, ¬ AvoidLen channels amount [] n start «end») ∧
      (∀ p, findAux channels «end» amount fuel visited queue = p → p ≠ [] →
        p.head? = some start ∧ p.getLastD 0 = «end» ∧
        p.Chain' (eligStep channels amount) ∧
        ∀ n, AvoidLen channels amount [] n start «end» → p.length ≤ n + 1) := by
  intro fuel
  induction fuel with
  | zero =>
    intro visited queue hfuel hq hfin hl hm
    constructor
    · intro _ n hav
      rcases hm «end» n hav with h | ⟨p, hpmem, _⟩
      · exact hfin h
      · have hq0 : queue = [] := by
          rw [queueMeasure] at hfuel
          exact List.length_eq_zero.mp (by omega)
        rw [hq0] at hpmem
        cases hpmem
    · intro p hp hne
      rw [findAux_zero] at hp
      exact absurd hp.symm hne
  | succ fuel ih =>
    intro visited queue hfuel hq hfin hl hm
    cases queue with
    | nil =>
      constructor
      · intro _ n hav
        rcases hm «end» n hav with h | ⟨p, hpmem, _⟩
        · exact hfin h
        · cases hpmem
      · intro p hp hne
        rw [findAux_succ_nil] at hp
        exact absurd hp.symm hne
    | cons path rest =>
      obtain ⟨hpne, hphead, hpchain⟩ := hq path (List.mem_cons_self path rest)
      by_cases hret : path.getLastD 0 = «end» ∧ isPathValid channels amount path = true
      · -- the dequeued path ends at the target and validates: it is returned
        have heq : findAux channels «end» amount (fuel + 1) visited (path :: rest) = path := by
          rw [findAux_succ_cons, if_pos hret]
        constructor
        · intro h0
          rw [heq] at h0
          exact absurd h0 hpne
        · intro p hp hne
          rw [heq] at hp
          subst hp
          refine ⟨hphead, hret.1, hpchain, ?_⟩
          intro n hav
          rcases hm «end» n hav with h | ⟨q, hqmem, hqlast, m, hqa, hqlen⟩
          · exact absurd h hfin
          · have hple := layered_head_le hl hqmem
            omega
      · by_cases hvis : path.getLastD 0 ∈ visited
        · -- dequeued node already visited: the path is dropped
          have heq : findAux channels «end» amount (fuel + 1) visited (path :: rest)
              = findAux channels «end» amount fuel visited rest := by
            rw [findAux_succ_cons, if_neg hret, if_pos hvis]
          have hq' : QInv channels amount start rest :=
            fun p hp => hq p (List.mem_cons_of_mem path hp)
          have hl' := layered_tail hl
          have hm' : MInv channels amount start visited rest := by
            intro v n hav
            rcases hm v n hav with h | ⟨q, hqmem, hqlast, m, hqa, hqlen⟩
            · exact Or.inl h
            · rcases List.mem_cons.mp hqmem with h | h
              · rw [h] at hqlast
                exact absurd hvis hqlast
              · exact Or.inr ⟨q, h, hqlast, m, hqa, hqlen⟩
          have hmeas : queueMeasure channels visited rest ≤ fuel := by
            have hstep := queueMeasure_tail_lt channels visited path rest
            omega
          rw [heq]
          exact ih visited rest hmeas hq' hfin hl' hm'
        · -- expansion: mark the node visited, enqueue its eligible extensions
          have heq : findAux channels «end» amount (fuel + 1) visited (path :: rest)
              = findAux channels «end» amount fuel (path.getLastD 0 :: visited)
                  (rest ++ (neighbors channels amount (path.getLastD 0)).map
                    (fun nb => path ++ [nb])) := by
            rw [findAux_succ_cons, if_neg hret, if_neg hvis]
          have hne_end : path.getLastD 0 ≠ «end» := by
            intro hc
            exact hret ⟨hc, isPathValid_of_chain hwf hpchain⟩
          have hfin' : «end» ∉ path.getLastD 0 :: visited := by
            intro hc
            rcases List.mem_cons.mp hc with h | h
            · exact hne_end h.symm
            · exact hfin h
          have hnews_mem : ∀ q ∈ (neighbors channels amount (path.getLastD 0)).map
              (fun nb => path ++ [nb]),
              ∃ nb, nb ∈ neighbors channels amount (path.getLastD 0) ∧ q = path ++ [nb] := by
            intro q hq2
            obtain ⟨nb, hnb, hq3⟩ := List.mem_map.mp hq2
            exact ⟨nb, hnb, hq3.symm⟩
          have hq' : QInv channels amount start
              (rest ++ (neighbors channels amount (path.getLastD 0)).map (fun nb => path ++ [nb])) :=
            qinv_expand hq
          have hlength_news : ∀ q ∈ (neighbors channels amount (path.getLastD 0)).map
              (fun nb => path ++ [nb]), q.length = path.length + 1 := by
            intro q hq2
            obtain ⟨nb, _, rfl⟩ := hnews_mem _ hq2
            simp
          have hl' := layered_expand hl hlength_news
          have hm' : MInv channels amount start (path.getLastD 0 :: visited)
              (rest ++ (neighbors channels amount (path.getLastD 0)).map (fun nb => path ++ [nb])) := by
            intro v n hav
            rcases hm v n hav with h | ⟨q, hqmem, hqlast, m, hqa, hqlen⟩
            · exact Or.inl (List.mem_cons_of_mem _ h)
            · have hple := layered_head_le hl hqmem
              rcases avoidLen_split (path.getLastD 0) hqa with hsp | hsp |
                ⟨w, m', hel, hwn, hgo, hmle⟩
              · by_cases hqn : q.getLastD 0 = path.getLastD 0
                · rw [hqn] at hsp
                  cases hsp with
                  | refl => exact Or.inl (List.mem_cons_self _ visited)
                  | @step m2 u2 w2 v2 hel2 hwn2 hgo2 =>
                    refine Or.inr ⟨path ++ [w2], ?_, ?_, m2, ?_, ?_⟩
                    · exact List.mem_append.mpr (Or.inr
                        (List.mem_map.mpr ⟨w2, mem_neighbors.mpr hel2, rfl⟩))
                    · rw [List.getLastD_concat]
                      exact hwn2
                    · rw [List.getLastD_concat]
                      exact hgo2
                    · rw [List.length_append, List.length_singleton]
                      omega
                · have hqrest : q ∈ rest := by
                    rcases List.mem_cons.mp hqmem with h | h
                    · exact absurd (by rw [h]) hqn
                    · exact h
                  refine Or.inr ⟨q, List.mem_append.mpr (Or.inl hqrest), ?_, m, hsp, hqlen⟩
                  intro hc
                  rcases List.mem_cons.mp hc with h | h
                  · exact hqn h
                  · exact hqlast h
              · exact Or.inl (hsp ▸ List.mem_cons_self _ visited)
              · refine Or.inr ⟨path ++ [w], ?_, ?_, m', ?_, ?_⟩
                · exact List.mem_append.mpr (Or.inr
                    (List.mem_map.mpr ⟨w, mem_neighbors.mpr hel, rfl⟩))
                · rw [List.getLastD_concat]
                  exact hwn
                · rw [List.getLastD_concat]
                  exact hgo
                · rw [List.length_append, List.length_singleton]
                  omega
          have hmeas : queueMeasure channels (path.getLastD 0 :: visited)
              (rest ++ (neighbors channels amount (path.getLastD 0)).map (fun nb => path ++ [nb]))
              ≤ fuel := by
            have hstep := queueMeasure_expand_lt channels visited path rest amount
              (path.getLastD 0) hvis
            omega
          rw [heq]
          exact ih (path.getLastD 0 :: visited) _ hmeas hq' hfin' hl' hm'

/-- Validity of any non-`[]` result, with no assumption on the channel list:
the returned path starts at the source, ends at the target, and each hop
passed the final capacity validation. -/
theorem findAux_valid {channels : List Channel} {start e amount : Nat} :
    ∀ (fuel : Nat) (visited : List Nat) (queue : List (List Nat)),
      QInv channels amount start queue →
      ∀ p, findAux channels e amount fuel visited queue = p → p ≠ [] →
        p.head? = some start ∧ p.getLastD 0 = e ∧ p.Chain' (eligStep channels amount) := by
  intro fuel
  induction fuel with
  | zero =>
    intro visited queue _ p hp hne
    rw [findAux_zero] at hp
    exact absurd hp.symm hne
  | succ fuel ih =>
    intro visited queue hq p hp hne
    cases queue with
    | nil =>
      rw [findAux_succ_nil] at hp
      exact absurd hp.symm hne
    | cons path rest =>
      obtain ⟨hpne, hphead, hpchain⟩ := hq path (List.mem_cons_self path rest)
      by_cases hret : path.getLastD 0 = e ∧ isPathValid channels amount path = true
      · rw [findAux_succ_cons, if_pos hret] at hp
        rw [← hp]
        exact ⟨hphead, hret.1, chain_of_isPathValid hret.2⟩
      · by_cases hvis : path.getLastD 0 ∈ visited
        · rw [findAux_succ_cons, if_neg hret, if_pos hvis] at hp
          exact ih visited rest (fun q hq2 => hq q (List.mem_cons_of_mem path hq2)) p hp hne
        · rw [findAux_succ_cons, if_neg hret, if_neg hvis] at hp
          exact ih _ _ (qinv_expand hq) p hp hne

theorem qinv_init {channels : List Channel} {amount s : Nat} :
    QInv channels amount s [[s]] := by
  intro p hp
  have hps : p = [s] := by simpa using hp
  rw [hps]
  exact ⟨by simp, rfl, List.chain'_singleton s⟩

/-- Instantiation of `findAux_main` at the router's initial state. -/
theorem findPath_main {channels : List Channel} {s t amount : Nat}
    (hwf : wfChannels channels = true) :
    (findPathWithCapacity channels s t amount = [] →
      ∀ n, ¬ AvoidLen channels amount [] n s t) ∧
    (∀ p, findPathWithCapacity channels s t amount = p → p ≠ [] →
      p.head? = some s ∧ p.getLastD 0 = t ∧ p.Chain' (eligStep channels amount) ∧
      ∀ n, AvoidLen channels amount [] n s t → p.length ≤ n + 1) := by
  have hfuel : queueMeasure channels [] [[s]] ≤ initialFuel channels :=
    le_of_eq (queueMeasure_init channels s)
  have hfin : t ∉ ([] : List Nat) := List.not_mem_nil t
  have hl : Layered [[s]] := ⟨1, [[s]], [], by simp, by intro p hp; simpa using congrArg List.length (by simpa using hp : p = [s]), by intro p hp; cases hp⟩
  have hm : MInv channels amount s [] [[s]] := by
    intro v n hav
    refine Or.inr ⟨[s], List.mem_cons_self [s] [], ?_, n, hav, ?_⟩
    · simp
    · simp only [List.length_singleton]
      omega
  exact findAux_main hwf (initialFuel channels) [] [[s]] hfuel qinv_init hfin hl hm

/-- As `findPath_main`, but the validity of a returned path needs no
well-formedness hypothesis. -/
theorem findPath_valid {channels : List Channel} {s t amount : Nat} {p : List Nat}
    (hret : findPathWithCapacity channels s t amount = p) (hne : p ≠ []) :
    p.head? = some s ∧ p.getLast? = some t ∧ p.Chain' (eligStep channels amount) := by
  obtain ⟨h1, h2, h3⟩ := findAux_valid (initialFuel channels) [] [[s]] qinv_init p hret hne
  exact ⟨h1, by rw [getLast?_eq_getLastD hne, h2], h3⟩

/-! ## Shortening a path with a repeated node -/

theorem exists_dup_decomp {p : List Nat} (h : ¬ p.Nodup) :
    ∃ (a : List Nat) (x : Nat) (b c : List Nat), p = a ++ x :: (b ++ x :: c) := by
  induction p with
  | nil => exact absurd List.nodup_nil h
  | cons y p' ih =>
    by_cases hy : y ∈ p'
    · obtain ⟨b, c, rfl⟩ := List.append_of_mem hy
      exact ⟨[], y, b, c, rfl⟩
    · have hnd : ¬ p'.Nodup := by
        intro hc
        exact h (List.nodup_cons.mpr ⟨hy, hc⟩)
      obtain ⟨a, x, b, c, rfl⟩ := ih hnd
      exact ⟨y :: a, x, b, c, rfl⟩

theorem chain'_shortcut {R : Nat → Nat → Prop} {a b c : List Nat} {x : Nat}
    (h : (a ++ x :: (b ++ x :: c)).Chain' R) : (a ++ x :: c).Chain' R := by
  have h1 : a ++ x :: (b ++ x :: c) = a ++ ((x :: b) ++ (x :: c)) := by simp
  rw [h1, List.chain'_append] at h
  obtain ⟨ha, hmid, hlink⟩ := h
  rw [List.chain'_append] at hmid
  obtain ⟨_, hxc, _⟩ := hmid
  rw [show a ++ x :: c = a ++ (x :: c) from rfl, List.chain'_append]
  refine ⟨ha, hxc, ?_⟩
  intro u hu v hv
  exact hlink u hu v (by simpa using hv)

theorem getLast?_append_cons (l₁ : List Nat) (x : Nat) (l₂ : List Nat) :
    (l₁ ++ x :: l₂).getLast? = (x :: l₂).getLast? := by
  induction l₁ with
  | nil => rfl
  | cons y l ih =>
    rw [List.cons_append]
    have h2 : (y :: (l ++ x :: l₂)).getLast? = (l ++ x :: l₂).getLast? := by
      cases hseq : l ++ x :: l₂ with
      | nil => exact absurd hseq (by simp)
      | cons z zs => rw [List.getLast?_cons_cons]
    rw [h2, ih]

/-- Cutting out the loop between two occurrences of the same node yields a
strictly shorter eligible path with the same endpoints. -/
theorem eligPath_shorten {channels : List Channel} {amount s t : Nat} {p : List Nat}
    (hp : IsEligPath channels amount s t p) (hnd : ¬ p.Nodup) :
    ∃ q, IsEligPath channels amount s t q ∧ q.length < p.length := by
  obtain ⟨hh, hl, hc⟩ := hp
  obtain ⟨a, x, b, c, rfl⟩ := exists_dup_decomp hnd
  refine ⟨a ++ x :: c, ⟨?_, ?_, chain'_shortcut hc⟩, ?_⟩
  · rw [← hh]
    cases a with
    | nil => rfl
    | cons y a' => rfl
  · rw [← hl, getLast?_append_cons a x c]
    have e1 : a ++ x :: (b ++ x :: c) = (a ++ x :: b) ++ x :: c := by simp
    rw [e1, getLast?_append_cons (a ++ x :: b) x c]
  · simp only [List.length_append, List.length_cons]
    omega

/-! ## Hops at the two ends of a path -/

theorem exists_last_step {R : Nat → Nat → Prop} :
    ∀ (p : List Nat) (s t : Nat), p.head? = some s → p.getLast? = some t →
      p.Chain' R → s ≠ t → ∃ w, R w t
  | [], _, _, hh, _, _, _ => by cases hh
  | [a], s, t, hh, hl, _, hst => by
    have h1 : a = s := by simpa using hh
    have h2 : a = t := by simpa using hl
    exact absurd (show s = t by omega) hst
  | a :: b :: rest, s, t, hh, hl, hc, hst => by
    rw [List.getLast?_cons_cons] at hl
    rw [List.chain'_cons] at hc
    by_cases hbt : b = t
    · have h1 : a = s := by simpa using hh
      exact ⟨a, hbt ▸ hc.1⟩
    · exact exists_last_step (b :: rest) b t rfl hl hc.2 hbt

theorem exists_first_step {R : Nat → Nat → Prop} :
    ∀ (p : List Nat) (s t : Nat), p.head? = some s → p.getLast? = some t →
      p.Chain' R → s ≠ t → ∃ w, R s w
  | [], _, _, hh, _, _, _ => by cases hh
  | [a], s, t, hh, hl, _, hst => by
    have h1 : a = s := by simpa using hh
    have h2 : a = t := by simpa using hl
    exact absurd (show s = t by omega) hst
  | a :: b :: rest, s, t, hh, _, hc, _ => by
    have h1 : a = s := by simpa using hh
    rw [List.chain'_cons] at hc
    exact ⟨b, h1 ▸ hc.1⟩

/-! ## Example network for concrete instantiations -/

/-- Nodes `{0,1,2}` with channels `0–1` and `1–2` of capacity 10,000,000
(the concrete scenario network of §8 of the spec). -/
def channels3 : List Channel := [⟨0, 1, 10000000⟩, ⟨1, 2, 10000000⟩]

/-! ## The claims about the router -/

/-- C1: for every (well-formed) network, source, target and positive
amount, `findPath` returns `not-found` (`[]`) iff no path of capacity-eligible
channels connects source and target: soundness and completeness. -/
theorem findPath_not_found_iff (channels : List Channel) (s t amount : Nat)
    (hwf : wfChannels channels = true) (hpos : 0 < amount) :
    findPathWithCapacity channels s t amount = [] ↔
      ¬ ∃ p, IsEligPath channels amount s t p := by
  constructor
  · intro h0 hex
    obtain ⟨p, hh, hl, hc⟩ := hex
    exact (findPath_main hwf).1 h0 (p.length - 1) (avoidLen_of_walk p s t hh hl hc)
  · intro hno
    by_contra hne
    obtain ⟨hh, hl, hc⟩ := findPath_valid rfl hne
    exact hno ⟨findPathWithCapacity channels s t amount, hh, hl, hc⟩

/-- Witness for C1 on the spec's scenario network. -/
theorem findPath_not_found_iff_witness :
    (findPathWithCapacity channels3 0 2 5000000 = [] ↔
      ¬ ∃ p, IsEligPath channels3 5000000 0 2 p) :=
  findPath_not_found_iff channels3 0 2 5000000 (by decide) (by decide)

/-- C2: any returned path has minimum hop count (hence minimum length)
among the capacity-eligible paths from source to target. -/
theorem findPath_min_hop_count (channels : List Channel) (s t amount : Nat) (p : List Nat)
    (hwf : wfChannels channels = true) (hpos : 0 < amount)
    (hret : findPathWithCapacity channels s t amount = p) (hne : p ≠ []) :
    ∀ q, IsEligPath channels amount s t q → p.length ≤ q.length := by
  intro q hq
  obtain ⟨hqh, hql, hqc⟩ := hq
  obtain ⟨_, _, _, hmin⟩ := (findPath_main hwf).2 p hret hne
  have h1 := hmin (q.length - 1) (avoidLen_of_walk q s t hqh hql hqc)
  have h2 : q ≠ [] := by
    intro h
    rw [h] at hqh
    cases hqh
  have h3 : 1 ≤ q.length := List.length_pos.mpr h2
  omega

/-- Witness for C2: the returned path `[0,1,2]` is no longer than itself. -/
theorem findPath_min_hop_count_witness :
    ([0, 1, 2] : List Nat).length ≤ ([0, 1, 2] : List Nat).length :=
  findPath_min_hop_count channels3 0 2 5000000 [0, 1, 2] (by decide) (by decide)
    (by decide) (by decide) [0, 1, 2]
    ⟨rfl, rfl, List.chain'_cons.mpr
      ⟨⟨⟨0, 1, 10000000⟩, by decide, by decide, by decide⟩, List.chain'_cons.mpr
        ⟨⟨⟨1, 2, 10000000⟩, by decide, by decide, by decide⟩, List.chain'_singleton 2⟩⟩⟩

/-- C3: every returned path starts at the source, ends at the target, and
each consecutive pair is joined by an existing channel with capacity at least
the requested amount (no well-formedness assumption needed). -/
theorem findPath_endpoints_and_channels (channels : List Channel) (s t amount : Nat)
    (p : List Nat)
    (hret : findPathWithCapacity channels s t amount = p) (hne : p ≠ []) :
    p.head? = some s ∧ p.getLast? = some t ∧ p.Chain' (eligStep channels amount) :=
  findPath_valid hret hne

/-- Witness for C3 on the spec's scenario network. -/
theorem findPath_endpoints_and_channels_witness :
    ([0, 1, 2] : List Nat).head? = some 0 ∧ ([0, 1, 2] : List Nat).getLast? = some 2 ∧
      ([0, 1, 2] : List Nat).Chain' (eligStep channels3 5000000) :=
  findPath_endpoints_and_channels channels3 0 2 5000000 [0, 1, 2] (by decide) (by decide)

/-- C4: a returned path never repeats a node. -/
theorem findPath_nodup (channels : List Channel) (s t amount : Nat) (p : List Nat)
    (hwf : wfChannels channels = true)
    (hret : findPathWithCapacity channels s t amount = p) (hne : p ≠ []) :
    p.Nodup := by
  by_contra hnd
  obtain ⟨hh, hl, hc⟩ := findPath_valid hret hne
  obtain ⟨_, _, _, hmin⟩ := (findPath_main hwf).2 p hret hne
  obtain ⟨q, hq, hlt⟩ := eligPath_shorten ⟨hh, hl, hc⟩ hnd
  obtain ⟨hqh, hql, hqc⟩ := hq
  have h1 := hmin (q.length - 1) (avoidLen_of_walk q s t hqh hql hqc)
  have h2 : q ≠ [] := by
    intro h
    rw [h] at hqh
    cases hqh
  have h3 : 1 ≤ q.length := List.length_pos.mpr h2
  omega

/-- Witness for C4 on the spec's scenario network. -/
theorem findPath_nodup_witness : ([0, 1, 2] : List Nat).Nodup :=
  findPath_nodup channels3 0 2 5000000 [0, 1, 2] (by decide) (by decide) (by decide)

/-- C5 as stated fails on the code: there is no input validation anywhere
in `findPathWithCapacity`; with the 3-node network, the out-of-range source
`99` produces the plain `not-found` result `[]`, not a distinct
input-validation error. -/
theorem findPath_out_of_range_cex :
    (∀ c ∈ channels3, c.start < 3 ∧ c.«end» < 3) ∧ 3 ≤ 99 ∧
      findPathWithCapacity channels3 99 0 5000000 = [] := by
  refine ⟨by decide, by decide, by decide⟩

/-- C5 (amended): if the source or the target is out of range (and they
differ), `findPath` returns `not-found` (`[]`), the same value as a routing
failure; no input-validation error is reported. -/
theorem findPath_out_of_range_not_found (channels : List Channel)
    (s t amount numNodes : Nat)
    (hrange : ∀ c ∈ channels, c.start < numNodes ∧ c.«end» < numNodes)
    (hst : s ≠ t) (hout : numNodes ≤ s ∨ numNodes ≤ t) :
    findPathWithCapacity channels s t amount = [] := by
  by_contra hne
  obtain ⟨hh, hl, hc⟩ := findPath_valid rfl hne
  rcases hout with hs | ht
  · obtain ⟨w, hw⟩ := exists_first_step _ s t hh hl hc hst
    obtain ⟨c, hcmem, hcon, _⟩ := hw
    obtain ⟨h1, h2⟩ := hrange c hcmem
    rcases connects_iff.mp hcon with ⟨h3, h4⟩ | ⟨h3, h4⟩ <;> omega
  · obtain ⟨w, hw⟩ := exists_last_step _ s t hh hl hc hst
    obtain ⟨c, hcmem, hcon, _⟩ := hw
    obtain ⟨h1, h2⟩ := hrange c hcmem
    rcases connects_iff.mp hcon with ⟨h3, h4⟩ | ⟨h3, h4⟩ <;> omega

/-- Witness for the amended C5. -/
theorem findPath_out_of_range_not_found_witness :
    findPathWithCapacity channels3 99 0 5000000 = [] :=
  findPath_out_of_range_not_found channels3 99 0 5000000 3 (by decide) (by decide)
    (Or.inl (by decide))

/-- C9: invoking the router with `source == target` terminates at once
with the trivial single-node path `[source]`, for every network and amount. -/
theorem findPath_self (channels : List Channel) (s amount : Nat) :
    findPathWithCapacity channels s s amount = [s] := by
  rw [findPathWithCapacity, initialFuel, findAux_succ_cons]
  rw [if_pos ⟨rfl, rfl⟩]

/-! ## The generator -/

theorem samePair_iff {c c' : Channel} :
    samePair c c' = true ↔
      (c.start = c'.start ∧ c.«end» = c'.«end») ∨ (c.start = c'.«end» ∧ c.«end» = c'.start) := by
  simp [samePair]

theorem length_filterMap_all_some {α β : Type} (f : α → Option β) :
    ∀ (l : List α), (∀ x ∈ l, (f x).isSome = true) → (l.filterMap f).length = l.length := by
  intro l
  induction l with
  | nil => intro _; rfl
  | cons a l ih =>
    intro h
    cases hfa : f a with
    | none =>
      have hx := h a (List.mem_cons_self a l)
      rw [hfa] at hx
      cases hx
    | some b =>
      simp only [List.filterMap_cons, hfa, List.length_cons]
      rw [ih (fun x hx => h x (List.mem_cons_of_mem a hx))]

/-- C6: `generate(n, p)` creates exactly `n` nodes indexed `0..n-1`; with
`p = 0.0` no pair test `Math.random() < 0.0` can succeed so no channel is
created, and with `p = 1.0` every one of the `n*(n-1)/2` pair tests succeeds. -/
theorem generate_counts (numNodes : Nat) (rand : Nat → Nat → ℚ) (capr : Nat → Nat → Nat)
    (hpos : 0 < numNodes) :
    (genNodes numNodes).length = numNodes ∧
    (∀ i, i < numNodes → (genNodes numNodes).getD i 0 = i) ∧
    ((∀ i j, 0 ≤ rand i j) → generateChannels rand capr numNodes 0 = []) ∧
    ((∀ i j, rand i j < 1) → (generateChannels rand capr numNodes 1).length
        = numNodes * (numNodes - 1) / 2) := by
  refine ⟨List.length_range numNodes, ?_, ?_, ?_⟩
  · intro i hi
    rw [genNodes, List.getD_eq_getElem?_getD, List.getElem?_range hi]
    rfl
  · intro h0
    rw [generateChannels]
    apply List.flatMap_eq_nil_iff.mpr
    intro i _
    apply List.filterMap_eq_nil_iff.mpr
    intro j _
    rw [if_neg]
    exact not_lt.mpr (h0 i j)
  · intro h1
    rw [generateChannels, List.length_flatMap]
    simp only [Function.comp_def]
    have heach : ∀ i, ((List.range' (i + 1) (numNodes - (i + 1))).filterMap (fun j =>
        if rand i j < 1 then some (⟨i, j, generateCapacity (capr i j)⟩ : Channel) else none)).length
        = numNodes - (i + 1) := by
      intro i
      rw [length_filterMap_all_some]
      · exact List.length_range' _ _ _
      · intro j _
        rw [if_pos (h1 i j)]
        rfl
    have hmap : (List.range numNodes).map (fun i =>
        ((List.range' (i + 1) (numNodes - (i + 1))).filterMap (fun j =>
          if rand i j < 1 then some (⟨i, j, generateCapacity (capr i j)⟩ : Channel)
          else none)).length)
        = (List.range numNodes).map (fun i => numNodes - (i + 1)) :=
      List.map_congr_left (fun i _ => heach i)
    rw [hmap]
    have h2 : ((List.range numNodes).map (fun i => numNodes - (i + 1))).sum
        = ∑ i in Finset.range numNodes, (numNodes - (i + 1)) := rfl
    have h3 : ∑ i in Finset.range numNodes, (numNodes - (i + 1))
        = ∑ i in Finset.range numNodes, ((fun x => x) (numNodes - 1 - i)) := by
      apply Finset.sum_congr rfl
      intro i _
      show numNodes - (i + 1) = numNodes - 1 - i
      omega
    have h4 := Finset.sum_range_reflect (fun x => x) numNodes
    have h5 := Finset.sum_range_id_mul_two numNodes
    rw [h2, h3, h4]
    omega

/-- Witness for C6 at `numNodes = 5` with degenerate random draws. -/
theorem generate_counts_witness :
    (genNodes 5).length = 5 ∧
    generateChannels (fun _ _ => (0 : ℚ)) (fun _ _ => 0) 5 0 = [] ∧
    (generateChannels (fun _ _ => (0 : ℚ)) (fun _ _ => 0) 5 1).length = 10 := by
  obtain ⟨h1, _, h3, h4⟩ := generate_counts 5 (fun _ _ => (0 : ℚ)) (fun _ _ => 0) (by decide)
  refine ⟨h1, h3 (fun i j => le_refl 0), ?_⟩
  rw [h4 (fun i j => zero_lt_one)]

theorem generateCapacity_mem (r : Nat) : generateCapacity r ∈ capacities := by
  rw [generateCapacity]
  have h : r % capacities.length < capacities.length := Nat.mod_lt r (by decide)
  rw [List.getD_eq_getElem?_getD, List.getElem?_eq_getElem h]
  simp only [Option.getD_some]
  exact List.getElem_mem h

theorem mem_generateChannels {rand : Nat → Nat → ℚ} {capr : Nat → Nat → Nat}
    {numNodes : Nat} {p : ℚ} {c : Channel}
    (hc : c ∈ generateChannels rand capr numNodes p) :
    ∃ i j, c = ⟨i, j, generateCapacity (capr i j)⟩ ∧ i < j ∧ j < numNodes := by
  rw [generateChannels] at hc
  obtain ⟨i, hi, hc2⟩ := List.mem_flatMap.mp hc
  obtain ⟨j, hj, hc3⟩ := List.mem_filterMap.mp hc2
  have hjr := List.mem_range'_1.mp hj
  have hir := List.mem_range.mp hi
  by_cases hr : rand i j < p
  · rw [if_pos hr] at hc3
    injection hc3 with h
    exact ⟨i, j, h.symm, by omega, by omega⟩
  · rw [if_neg hr] at hc3
    cases hc3

theorem pairwise_filterMap_of {α β : Type} {R : α → α → Prop} {S : β → β → Prop}
    (f : α → Option β)
    (h : ∀ a b, R a b → ∀ x y, f a = some x → f b = some y → S x y) :
    ∀ (l : List α), List.Pairwise R l → List.Pairwise S (l.filterMap f) := by
  intro l
  induction l with
  | nil => intro _; exact List.Pairwise.nil
  | cons a l ih =>
    intro hl
    obtain ⟨hra, hpl⟩ := List.pairwise_cons.mp hl
    cases hfa : f a with
    | none =>
      simp only [List.filterMap_cons, hfa]
      exact ih hpl
    | some x =>
      simp only [List.filterMap_cons, hfa]
      rw [List.pairwise_cons]
      refine ⟨?_, ih hpl⟩
      intro y hy
      obtain ⟨b, hb, hfb⟩ := List.mem_filterMap.mp hy
      exact h a b (hra b hb) x y hfa hfb

theorem pairwise_flatMap_of {α β : Type} {R : α → α → Prop} {S : β → β → Prop}
    (f : α → List β)
    (hacross : ∀ a b, R a b → ∀ x ∈ f a, ∀ y ∈ f b, S x y) :
    ∀ (l : List α), List.Pairwise R l → (∀ a ∈ l, List.Pairwise S (f a)) →
      List.Pairwise S (l.flatMap f) := by
  intro l
  induction l with
  | nil => intro _ _; exact List.Pairwise.nil
  | cons a l ih =>
    intro hl hwithin
    obtain ⟨hra, hpl⟩ := List.pairwise_cons.mp hl
    rw [List.flatMap_cons, List.pairwise_append]
    refine ⟨hwithin a (List.mem_cons_self a l),
      ih hpl (fun b hb => hwithin b (List.mem_cons_of_mem a hb)), ?_⟩
    intro x hx y hy
    obtain ⟨b, hb, hyb⟩ := List.mem_flatMap.mp hy
    exact hacross a b (hra b hb) x hx y hyb

/-- C7: in every generated network each channel joins two distinct valid
node indices, no unordered pair carries two channels, and every capacity is
drawn from the fixed representative set. -/
theorem generate_channel_invariants (numNodes : Nat) (p : ℚ) (rand : Nat → Nat → ℚ)
    (capr : Nat → Nat → Nat) :
    (∀ c ∈ generateChannels rand capr numNodes p,
        c.start ≠ c.«end» ∧ c.start < numNodes ∧ c.«end» < numNodes ∧
          c.capacity ∈ capacities) ∧
    List.Pairwise (fun c c' => samePair c c' = false)
      (generateChannels rand capr numNodes p) := by
  have hmemfact : ∀ c ∈ generateChannels rand capr numNodes p,
      c.start < c.«end» ∧ c.«end» < numNodes ∧ c.capacity ∈ capacities := by
    intro c hc
    obtain ⟨i, j, rfl, hij, hjn⟩ := mem_generateChannels hc
    exact ⟨hij, hjn, generateCapacity_mem _⟩
  have hblock : ∀ i (x : Channel), x ∈ (List.range' (i + 1) (numNodes - (i + 1))).filterMap
      (fun j => if rand i j < p then some (⟨i, j, generateCapacity (capr i j)⟩ : Channel)
        else none) → x.start = i := by
    intro i x hx
    obtain ⟨j, _, hfx⟩ := List.mem_filterMap.mp hx
    by_cases hr : rand i j < p
    · rw [if_pos hr] at hfx
      injection hfx with h
      rw [← h]
    · rw [if_neg hr] at hfx
      cases hfx
  constructor
  · intro c hc
    obtain ⟨h1, h2, h3⟩ := hmemfact c hc
    exact ⟨by omega, by omega, h2, h3⟩
  · have hS0 : List.Pairwise (fun c c' : Channel =>
        c.start < c'.start ∨ (c.start = c'.start ∧ c.«end» < c'.«end»))
        (generateChannels rand capr numNodes p) := by
      rw [generateChannels]
      refine pairwise_flatMap_of _ ?_ _ (List.pairwise_lt_range numNodes) ?_
      · intro i i' hii x hx y hy
        exact Or.inl (by rw [hblock i x hx, hblock i' y hy]; exact hii)
      · intro i _
        refine pairwise_filterMap_of _ ?_ _ (List.pairwise_lt_range' (i + 1) (numNodes - (i + 1)))
        intro j j' hjj x y hfx hfy
        by_cases hr : rand i j < p
        · by_cases hr' : rand i j' < p
          · rw [if_pos hr] at hfx
            rw [if_pos hr'] at hfy
            injection hfx with h1
            injection hfy with h2
            rw [← h1, ← h2]
            exact Or.inr ⟨rfl, hjj⟩
          · rw [if_neg hr'] at hfy
            cases hfy
        · rw [if_neg hr] at hfx
          cases hfx
    refine hS0.imp_of_mem ?_
    intro c c' hc hc' hS
    obtain ⟨h1, h2, _⟩ := hmemfact c hc
    obtain ⟨h1', h2', _⟩ := hmemfact c' hc'
    cases hq : samePair c c' with
    | false => rfl
    | true =>
      exfalso
      rcases samePair_iff.mp hq with ⟨e1, e2⟩ | ⟨e1, e2⟩ <;>
        rcases hS with h | ⟨h3, h4⟩ <;> omega

/-! ## The formatting helpers -/

/-- C8: amounts of at least 100,000,000 sats are shown in BTC and smaller
amounts in millions of sats; in particular `format(250000000) = "2.50 BTC"`
and `format(15000000) = "15.00m sats"`. -/
theorem formatCapacity_units :
    (∀ sats : Nat, 100000000 < sats →
      formatCapacity sats = toFixed2 ((sats : ℚ) / 100000000) ++ " BTC") ∧
    (∀ sats : Nat, sats < 100000000 →
      formatCapacity sats = toFixed2 ((sats : ℚ) / 1000000) ++ "m sats") ∧
    formatCapacity 250000000 = "2.50 BTC" ∧ formatCapacity 15000000 = "15.00m sats" := by
  refine ⟨?_, ?_, ?_, ?_⟩
  · intro sats h
    rw [formatCapacity, if_pos (by omega)]
  · intro sats h
    rw [formatCapacity, if_neg (by omega)]
  · have h : ((250000000 : Nat) : ℚ) / 100000000 * 100 + 1 / 2 = 501 / 2 := by norm_num
    rw [formatCapacity, if_pos (by norm_num), toFixed2, h]
    have h2 : ⌊(501 : ℚ) / 2⌋ = 250 := by
      rw [Int.floor_eq_iff]
      norm_num
    rw [h2]
    decide
  · have h : ((15000000 : Nat) : ℚ) / 1000000 * 100 + 1 / 2 = 3001 / 2 := by norm_num
    rw [formatCapacity, if_neg (by norm_num), toFixed2, h]
    have h2 : ⌊(3001 : ℚ) / 2⌋ = 1500 := by
      rw [Int.floor_eq_iff]
      norm_num
    rw [h2]
    decide

/-- Witness for C8 at amounts on either side of the threshold. -/
theorem formatCapacity_units_witness :
    formatCapacity 200000001 = toFixed2 (((200000001 : Nat) : ℚ) / 100000000) ++ " BTC" ∧
    formatCapacity 5000000 = toFixed2 (((5000000 : Nat) : ℚ) / 1000000) ++ "m sats" :=
  ⟨formatCapacity_units.1 200000001 (by norm_num),
    formatCapacity_units.2.1 5000000 (by norm_num)⟩

/-- C10: at the exact boundary of 100,000,000 sats the `>=` comparison
selects the BTC branch: `format(100000000) = "1.00 BTC"`. -/
theorem formatCapacity_boundary : formatCapacity 100000000 = "1.00 BTC" := by
  have h : ((100000000 : Nat) : ℚ) / 100000000 * 100 + 1 / 2 = 201 / 2 := by norm_num
  rw [formatCapacity, if_pos (by norm_num), toFixed2, h]
  have h2 : ⌊(201 : ℚ) / 2⌋ = 100 := by
    rw [Int.floor_eq_iff]
    norm_num
  rw [h2]
  decide
